import Mathlib

/-!
Verification of the RagBag backend document-ingestion and retrieval pipeline.

Each relevant Python function of the repository is embedded as an executable
Lean definition.  Python `while` loops are modelled with an explicit step
budget: a `none` result means the loop has not finished within the given
number of iterations, so a result that is `none` for every budget models a
divergent loop.  Python list slices, string `strip`, dictionary lookups and
truthiness are modelled explicitly.
-/

namespace RagBag

/-- Python list slicing `l[a:b]` (no step argument): negative indices count
from the end and both bounds are clamped to `[0, len l]`. -/
def pySlice {α : Type} (l : List α) (a b : Int) : List α :=
  let n : Int := l.length
  let lo : Nat := (if a < 0 then max (n + a) 0 else min a n).toNat
  let hi : Nat := (if b < 0 then max (n + b) 0 else min b n).toNat
  (l.drop lo).take (hi - lo)

/-- Budgeted unfolding of the `while start < len(tokens)` loop of
`chunk_text_by_token` (src/accounts/tasks.py, lines 122-128): each iteration
takes the window `tokens[start : start + chunk_size]` and advances `start` by
`chunk_size - chunk_overlap`, computed in `Int` exactly as Python does (the
advance can be zero or negative).  `none` means the loop did not finish
within `fuel` iterations. -/
def chunkFuel {α : Type} (tokens : List α) (chunk_size chunk_overlap : Nat) :
    Nat → Int → Option (List (List α))
  | 0, start =>
      if start < (tokens.length : Int) then none else some []
  | fuel + 1, start =>
      if start < (tokens.length : Int) then
        (chunkFuel tokens chunk_size chunk_overlap fuel
            (start + ((chunk_size : Int) - (chunk_overlap : Int)))).map
          (fun rest => pySlice tokens start (start + (chunk_size : Int)) :: rest)
      else some []

/-- Tokenizer interface used by the chunker (tiktoken `encode` / `decode`). -/
structure Tokenizer where
  encode : String → List Nat
  decode : List Nat → String

/-- Token windows produced by the chunking loop, with a budget of one
iteration per token.  This budget suffices whenever
`chunk_overlap < chunk_size` (see `chunkFuel_spec`); otherwise the loop
diverges and the result is `none`. -/
def chunkWindows {α : Type} (tokens : List α) (chunk_size chunk_overlap : Nat) :
    Option (List (List α)) :=
  chunkFuel tokens chunk_size chunk_overlap tokens.length 0

/-- Embedding of `chunk_text_by_token` (src/accounts/tasks.py, lines
117-129).  Returns `some []` for empty text or a missing tokenizer (the
`if not text or not tokenizer` guard), otherwise the decoded window texts;
`none` when the window loop diverges. -/
def chunk_text_by_token (text : String) (tokenizer : Option Tokenizer)
    (chunk_size chunk_overlap : Nat) : Option (List String) :=
  match tokenizer with
  | none => some []
  | some tk =>
      if text = "" then some []
      else (chunkWindows (tk.encode text) chunk_size chunk_overlap).map
        (fun ws => ws.map tk.decode)

/-- Sample tokenizer over character codes, used for concrete evaluations. -/
def asciiTokenizer : Tokenizer :=
  ⟨fun s => s.data.map Char.toNat, fun l => String.mk (l.map Char.ofNat)⟩

/-- Slicing with natural-number bounds agrees with `drop` / `take`. -/
theorem pySlice_natCast {α : Type} (l : List α) (a b : Nat) :
    pySlice l (a : Int) (b : Int) = (l.drop a).take (b - a) := by
  simp only [pySlice]
  rw [if_neg (by omega), if_neg (by omega)]
  have hlo : (min (a : Int) (l.length : Int)).toNat = min a l.length := by omega
  have hhi : (min (b : Int) (l.length : Int)).toNat = min b l.length := by omega
  rw [hlo, hhi]
  by_cases ha : a < l.length
  · have hmin : min a l.length = a := by omega
    rw [hmin, List.take_eq_take]
    simp [List.length_drop]
    omega
  · have h1 : l.drop (min a l.length) = [] := by
      simp [List.drop_eq_nil_iff]
      omega
    have h2 : l.drop a = [] := by
      simp [List.drop_eq_nil_iff]
      omega
    rw [h1, h2, List.take_nil, List.take_nil]

/-- Characterization of the chunking loop for a valid configuration
(`chunk_overlap < chunk_size`): starting at `start`, the loop finishes
within `tokens.length - start` iterations, and the `k`-th produced window is
the slice beginning at `start + k * (chunk_size - chunk_overlap)`. -/
theorem chunkFuel_spec {α : Type} (tokens : List α) (cs ov : Nat) (hov : ov < cs) :
    ∀ fuel (start : Nat), tokens.length - start ≤ fuel →
      ∃ ws, chunkFuel tokens cs ov fuel (start : Int) = some ws ∧
        (∀ k, k < ws.length ↔ start + k * (cs - ov) < tokens.length) ∧
        (∀ k, k < ws.length → ws.getD k [] =
          pySlice tokens ((start + k * (cs - ov) : Nat) : Int)
            ((start + k * (cs - ov) + cs : Nat) : Int)) := by
  intro fuel
  induction fuel with
  | zero =>
      intro start hle
      have hns : tokens.length ≤ start := by omega
      have hguard : ¬ ((start : Int) < (tokens.length : Int)) := by omega
      refine ⟨[], ?_, ?_, ?_⟩
      · simp [chunkFuel, hguard]
      · intro k
        constructor
        · intro hk
          simp at hk
        · intro hk
          exfalso
          have := Nat.le_add_right start (k * (cs - ov))
          omega
      · intro k hk
        simp at hk
  | succ fuel ih =>
      intro start hle
      by_cases hst : start < tokens.length
      · have hguard : (start : Int) < (tokens.length : Int) := by omega
        have hstep : (start : Int) + ((cs : Int) - (ov : Int)) =
            ((start + (cs - ov) : Nat) : Int) := by
          push_cast [Nat.cast_sub hov.le]
          ring
        have hrec : tokens.length - (start + (cs - ov)) ≤ fuel := by omega
        obtain ⟨ws, hws, hlen, hget⟩ := ih (start + (cs - ov)) hrec
        refine ⟨pySlice tokens (start : Int) ((start : Int) + (cs : Int)) :: ws, ?_, ?_, ?_⟩
        · simp only [chunkFuel, if_pos hguard, hstep, hws]
          rfl
        · intro k
          cases k with
          | zero =>
              simp only [List.length_cons, Nat.zero_mul, Nat.add_zero]
              exact iff_of_true (Nat.succ_pos _) hst
          | succ k =>
              have harith : start + (cs - ov) + k * (cs - ov) = start + (k + 1) * (cs - ov) := by
                ring
              rw [List.length_cons, Nat.succ_lt_succ_iff, hlen k, harith]
        · intro k hk
          cases k with
          | zero =>
              simp only [List.getD_cons_zero, Nat.zero_mul, Nat.add_zero]
              have hcast : (start : Int) + (cs : Int) = ((start + cs : Nat) : Int) := by
                push_cast
                ring
              rw [hcast]
          | succ k =>
              have hk2 : k < ws.length := by
                simpa [Nat.succ_lt_succ_iff] using hk
              have harith : start + (cs - ov) + k * (cs - ov) = start + (k + 1) * (cs - ov) := by
                ring
              have := hget k hk2
              rw [List.getD_cons_succ, this, harith]
      · have hguard : ¬ ((start : Int) < (tokens.length : Int)) := by omega
        refine ⟨[], ?_, ?_, ?_⟩
        · simp [chunkFuel, hguard]
        · intro k
          constructor
          · intro hk
            simp at hk
          · intro hk
            exfalso
            have := Nat.le_add_right start (k * (cs - ov))
            omega
        · intro k hk
          simp at hk

/-- With a non-positive advance (`chunk_size ≤ chunk_overlap`) and a
non-empty token stream, the loop never finishes: every step budget is
exhausted. -/
theorem chunkFuel_diverges {α : Type} (tokens : List α) (cs ov : Nat)
    (hov : cs ≤ ov) (hne : tokens ≠ []) :
    ∀ fuel (start : Int), start ≤ 0 → chunkFuel tokens cs ov fuel start = none := by
  have hlen : 0 < tokens.length := List.length_pos.mpr hne
  intro fuel
  induction fuel with
  | zero =>
      intro start hs
      have hguard : start < (tokens.length : Int) := by omega
      simp [chunkFuel, hguard]
  | succ fuel ih =>
      intro start hs
      have hguard : start < (tokens.length : Int) := by omega
      have hstep : start + ((cs : Int) - (ov : Int)) ≤ 0 := by omega
      simp [chunkFuel, hguard, ih _ hstep]

/-- Claim C1: the spec requires `chunk_text_by_token` to reject
`overlap ≥ chunk_size` with a configuration error before the loop runs.
The code performs no such check: at chunk_size = 100, overlap = 100 the
advance is zero and the loop never terminates on a non-empty token stream
(no step budget suffices), so the function diverges instead of raising. -/
theorem chunk_config_not_rejected :
    (∀ fuel : Nat, chunkFuel ([0] : List Nat) 100 100 fuel 0 = none) ∧
    chunk_text_by_token "a" (some asciiTokenizer) 100 100 = none := by
  constructor
  · intro fuel
    exact chunkFuel_diverges [0] 100 100 (by omega) (by simp) fuel 0 (by omega)
  · have henc : asciiTokenizer.encode "a" = [97] := by rfl
    have h1 : chunkWindows (asciiTokenizer.encode "a") 100 100 = none := by
      rw [henc]
      exact chunkFuel_diverges [97] 100 100 (by omega) (by simp) 1 0 (by omega)
    simp [chunk_text_by_token, h1]

/-- Claim C4: for every valid configuration `chunk_overlap < chunk_size`,
the chunking loop terminates with windows whose token ranges cover every
token index, adjacent full windows share exactly `chunk_overlap` tokens
(both as equal token content and as count), and empty or unparseable text
(or a missing tokenizer) yields an empty sequence. -/
theorem chunk_coverage (cs ov : Nat) (hov : ov < cs) (tokens : List Nat)
    (tk : Tokenizer) (text : String) :
    ∃ ws, chunkWindows tokens cs ov = some ws ∧
      (∀ k, k < ws.length → ws.getD k [] =
          pySlice tokens ((k * (cs - ov) : Nat) : Int) ((k * (cs - ov) + cs : Nat) : Int)) ∧
      (∀ i, i < tokens.length → ∃ k, k < ws.length ∧
          k * (cs - ov) ≤ i ∧ i < k * (cs - ov) + cs) ∧
      (∀ k, k + 1 < ws.length → k * (cs - ov) + cs ≤ tokens.length →
          (ws.getD k []).drop (cs - ov) = (ws.getD (k + 1) []).take ov ∧
          ((ws.getD k []).drop (cs - ov)).length = ov) ∧
      chunk_text_by_token "" (some tk) cs ov = some [] ∧
      chunk_text_by_token text none cs ov = some [] ∧
      (text ≠ "" → ∃ ws2, chunkWindows (tk.encode text) cs ov = some ws2 ∧
          chunk_text_by_token text (some tk) cs ov = some (ws2.map tk.decode)) := by
  obtain ⟨ws, hws, hlen, hget⟩ :=
    chunkFuel_spec tokens cs ov hov tokens.length 0 (by omega)
  have hws2 : chunkWindows tokens cs ov = some ws := by
    simpa [chunkWindows] using hws
  have hlen2 : ∀ k, k < ws.length ↔ k * (cs - ov) < tokens.length := by
    intro k
    simpa using hlen k
  have hget2 : ∀ k, k < ws.length → ws.getD k [] =
      (tokens.drop (k * (cs - ov))).take cs := by
    intro k hk
    have h := hget k hk
    rw [pySlice_natCast, Nat.add_sub_cancel_left] at h
    simpa using h
  refine ⟨ws, hws2, ?_, ?_, ?_, ?_, ?_, ?_⟩
  · intro k hk
    simpa using hget k hk
  · intro i hi
    have hpos : 0 < cs - ov := by omega
    refine ⟨i / (cs - ov), ?_, ?_, ?_⟩
    · exact (hlen2 _).mpr (Nat.lt_of_le_of_lt (Nat.div_mul_le_self i (cs - ov)) hi)
    · exact Nat.div_mul_le_self i (cs - ov)
    · calc i < i / (cs - ov) * (cs - ov) + (cs - ov) := Nat.lt_div_mul_add hpos
        _ ≤ i / (cs - ov) * (cs - ov) + cs := by omega
  · intro k hk1 hkfull
    have hkk : k < ws.length := Nat.lt_of_succ_lt hk1
    have hwk := hget2 k hkk
    have hwk1 := hget2 (k + 1) hk1
    have hmul : k * (cs - ov) + (cs - ov) = (k + 1) * (cs - ov) := by ring
    have hsub : cs - (cs - ov) = ov := by omega
    constructor
    · rw [hwk, hwk1, List.drop_take, List.drop_drop, hmul, hsub, List.take_take,
        Nat.min_eq_left hov.le]
    · rw [hwk]
      generalize hK : k * (cs - ov) = K at hkfull ⊢
      simp only [List.length_drop, List.length_take]
      omega
  · simp [chunk_text_by_token]
  · rfl
  · intro hne
    obtain ⟨ws2, hws2e, _, _⟩ :=
      chunkFuel_spec (tk.encode text) cs ov hov (tk.encode text).length 0 (by omega)
    have hwse : chunkWindows (tk.encode text) cs ov = some ws2 := by
      simpa [chunkWindows] using hws2e
    refine ⟨ws2, hwse, ?_⟩
    simp [chunk_text_by_token, hne, hwse]

/-- Witness for `chunk_coverage` at a concrete valid configuration. -/
theorem chunk_coverage_witness :
    1 < 3 ∧
    (∃ ws, chunkWindows ([10, 11, 12, 13, 14] : List Nat) 3 1 = some ws ∧
      (∀ k, k < ws.length → ws.getD k [] =
          pySlice [10, 11, 12, 13, 14] ((k * (3 - 1) : Nat) : Int)
            ((k * (3 - 1) + 3 : Nat) : Int)) ∧
      (∀ i, i < ([10, 11, 12, 13, 14] : List Nat).length → ∃ k, k < ws.length ∧
          k * (3 - 1) ≤ i ∧ i < k * (3 - 1) + 3) ∧
      (∀ k, k + 1 < ws.length → k * (3 - 1) + 3 ≤ ([10, 11, 12, 13, 14] : List Nat).length →
          (ws.getD k []).drop (3 - 1) = (ws.getD (k + 1) []).take 1 ∧
          ((ws.getD k []).drop (3 - 1)).length = 1) ∧
      chunk_text_by_token "" (some asciiTokenizer) 3 1 = some [] ∧
      chunk_text_by_token "x" none 3 1 = some [] ∧
      ("x" ≠ "" → ∃ ws2, chunkWindows (asciiTokenizer.encode "x") 3 1 = some ws2 ∧
          chunk_text_by_token "x" (some asciiTokenizer) 3 1 = some (ws2.map asciiTokenizer.decode))) :=
  ⟨by decide, chunk_coverage 3 1 (by decide) [10, 11, 12, 13, 14] asciiTokenizer "x"⟩

/-! ### Formatter (src/utils/formatting.py) -/

/-- Python whitespace characters removed by `str.strip()`. -/
def pyIsSpace (c : Char) : Bool :=
  c == ' ' || c == '\n' || c == '\t' || c == '\r' || c == '\x0b' || c == '\x0c'

/-- Embedding of Python `str.strip()` on character lists. -/
def pyStripChars (l : List Char) : List Char :=
  ((l.dropWhile pyIsSpace).reverse.dropWhile pyIsSpace).reverse

/-- Attempt to match the regex `(\*\*[^\*]+\*\*)` at the head of the input:
two stars, one or more non-star characters, two stars.  On success returns
the matched token and the remaining input. -/
def tryBold : List Char → Option (List Char × List Char)
  | c1 :: c2 :: rest =>
      if c1 = '*' ∧ c2 = '*' then
        if rest.takeWhile (fun c => c != '*') = [] then none
        else
          match rest.dropWhile (fun c => c != '*') with
          | d1 :: d2 :: rem =>
              if d1 = '*' ∧ d2 = '*' then
                some ('*' :: '*' :: rest.takeWhile (fun c => c != '*') ++ ['*', '*'], rem)
              else none
          | _ => none
      else none
  | _ => none

/-- Budgeted left-to-right scan of `re.sub(r'(\*\*[^\*]+\*\*)', r'\n\1\n', text)`
(src/utils/formatting.py line 6): each leftmost non-overlapping match `m` is
replaced by `\n` + `m` + `\n`; other characters are copied. -/
def subBoldFuel : Nat → List Char → List Char
  | 0, l => l
  | _ + 1, [] => []
  | fuel + 1, c :: rest =>
      match tryBold (c :: rest) with
      | some (m, rem) => '\n' :: (m ++ '\n' :: subBoldFuel fuel rem)
      | none => c :: subBoldFuel fuel rest

/-- The bold-wrapping substitution pass with a sufficient budget. -/
def subBold (l : List Char) : List Char := subBoldFuel l.length l

/-- The list of regex matches found by the left-to-right scan. -/
def boldMatchesFuel : Nat → List Char → List (List Char)
  | 0, _ => []
  | _ + 1, [] => []
  | fuel + 1, c :: rest =>
      match tryBold (c :: rest) with
      | some (m, rem) => m :: boldMatchesFuel fuel rem
      | none => boldMatchesFuel fuel rest

/-- Bold-token matches of the input, in scan order. -/
def boldMatches (l : List Char) : List (List Char) := boldMatchesFuel l.length l

/-- Embedding of `re.sub(r'\n{3,}', r'\n\n', text)` (src/utils/formatting.py
line 9): every maximal run of three or more newlines is replaced by exactly
two.  Processing right to left and keeping at most the last two newlines of
each run produces exactly that replacement (the replacement characters are
newlines, so keeping the last two of a long run equals replacing it by two). -/
def collapseNewlines : List Char → List Char
  | [] => []
  | c :: rest =>
      let acc := collapseNewlines rest
      if c = '\n' ∧ acc.take 2 = ['\n', '\n'] then acc else c :: acc

/-- Embedding of `enforce_markdown_spacing` (src/utils/formatting.py lines
3-12): wrap every bold token in single newlines, collapse runs of three or
more newlines to two, strip leading and trailing whitespace. -/
def enforce_markdown_spacing (text : String) : String :=
  String.mk (pyStripChars (collapseNewlines (subBold text.data)))

/-- Decides whether three consecutive newline characters occur anywhere. -/
def containsRun3 : List Char → Bool
  | [] => false
  | c :: rest => (c == '\n' && rest.take 2 == ['\n', '\n']) || containsRun3 rest

/-- Decides whether two consecutive newline characters (a blank line) occur
anywhere. -/
def containsRun2 : List Char → Bool
  | [] => false
  | c :: rest => (c == '\n' && rest.take 1 == ['\n']) || containsRun2 rest


/-- Decomposition property of a successful bold match: the input is the
match followed by the remainder, and the match consumes at least five
characters. -/
theorem tryBold_sound : ∀ l m rem, tryBold l = some (m, rem) →
    l = m ++ rem ∧ 5 + rem.length ≤ l.length := by
  intro l m rem h
  match l with
  | [] => simp [tryBold] at h
  | [c] => simp [tryBold] at h
  | c1 :: c2 :: rest =>
    simp only [tryBold] at h
    by_cases h12 : c1 = '*' ∧ c2 = '*'
    · rw [if_pos h12] at h
      by_cases hc : rest.takeWhile (fun c => c != '*') = []
      · rw [if_pos hc] at h
        exact absurd h (by simp)
      · rw [if_neg hc] at h
        cases hr : rest.dropWhile (fun c => c != '*') with
        | nil => simp [hr] at h
        | cons d1 rest3 =>
          cases rest3 with
          | nil => simp [hr] at h
          | cons d2 rem2 =>
            simp only [hr] at h
            by_cases hd : d1 = '*' ∧ d2 = '*'
            · rw [if_pos hd] at h
              have hm1 : '*' :: '*' :: rest.takeWhile (fun c => c != '*') ++ ['*', '*'] = m :=
                congrArg Prod.fst (Option.some_injective _ h)
              have hm2 : rem2 = rem := congrArg Prod.snd (Option.some_injective _ h)
              have hsplit : rest.takeWhile (fun c => c != '*') ++
                  rest.dropWhile (fun c => c != '*') = rest :=
                List.takeWhile_append_dropWhile _ _
              have hlen1 : 1 ≤ (rest.takeWhile (fun c => c != '*')).length := by
                cases hcw : rest.takeWhile (fun c => c != '*') with
                | nil => exact absurd hcw hc
                | cons x xs => simp
              constructor
              · rw [← hm1, ← hm2, h12.1, h12.2]
                conv_lhs => rw [← hsplit, hr]
                rw [hd.1, hd.2]
                simp
              · have hlen2 : rest.length = (rest.takeWhile (fun c => c != '*')).length +
                    (2 + rem2.length) := by
                  conv_lhs => rw [← hsplit]
                  rw [hr]
                  simp
                  omega
                simp only [List.length_cons, ← hm2]
                omega
            · rw [if_neg hd] at h
              exact absurd h (by simp)
    · rw [if_neg h12] at h
      exact absurd h (by simp)

/-- Respecting the budget, the bold-substitution scan is independent of the
exact budget value. -/
theorem subBoldFuel_congr : ∀ fuel fuel2 (l : List Char), l.length ≤ fuel →
    l.length ≤ fuel2 → subBoldFuel fuel l = subBoldFuel fuel2 l := by
  intro fuel
  induction fuel with
  | zero =>
      intro fuel2 l h1 _
      have hl : l = [] := List.eq_nil_of_length_eq_zero (by omega)
      subst hl
      cases fuel2 <;> rfl
  | succ fuel ih =>
      intro fuel2 l h1 h2
      cases l with
      | nil => cases fuel2 <;> rfl
      | cons c rest =>
          cases fuel2 with
          | zero => simp at h2
          | succ fuel2 =>
              cases htb : tryBold (c :: rest) with
              | none =>
                  simp only [subBoldFuel, htb]
                  rw [ih fuel2 rest (by simp at h1; omega) (by simp at h2; omega)]
              | some pr =>
                  obtain ⟨m, rem⟩ := pr
                  obtain ⟨_, hlen⟩ := tryBold_sound _ _ _ htb
                  simp only [List.length_cons] at h1 h2 hlen
                  simp only [subBoldFuel, htb]
                  rw [ih fuel2 rem (by omega) (by omega)]

/-- Every bold match found by the scan appears in the substituted output
flanked by exactly the inserted single newlines. -/
theorem boldMatchesFuel_wrapped : ∀ fuel (l : List Char), l.length ≤ fuel →
    ∀ m, m ∈ boldMatchesFuel fuel l →
      ∃ pre post, subBoldFuel fuel l = pre ++ '\n' :: (m ++ '\n' :: post) := by
  intro fuel
  induction fuel with
  | zero =>
      intro l h1 m hm
      simp [boldMatchesFuel] at hm
  | succ fuel ih =>
      intro l h1 m hm
      cases l with
      | nil => simp [boldMatchesFuel] at hm
      | cons c rest =>
          cases htb : tryBold (c :: rest) with
          | none =>
              simp only [boldMatchesFuel, htb] at hm
              obtain ⟨pre, post, hdec⟩ := ih rest (by simp at h1; omega) m hm
              refine ⟨c :: pre, post, ?_⟩
              simp only [subBoldFuel, htb, hdec]
              rfl
          | some pr =>
              obtain ⟨m0, rem⟩ := pr
              obtain ⟨_, hlen⟩ := tryBold_sound _ _ _ htb
              simp only [List.length_cons] at h1 hlen
              simp only [boldMatchesFuel, htb, List.mem_cons] at hm
              cases hm with
              | inl hm =>
                  subst hm
                  refine ⟨[], subBoldFuel fuel rem, ?_⟩
                  simp [subBoldFuel, htb]
              | inr hm =>
                  obtain ⟨pre, post, hdec⟩ := ih rem (by omega) m hm
                  refine ⟨'\n' :: m0 ++ '\n' :: pre, post, ?_⟩
                  simp [subBoldFuel, htb, hdec]

/-- Bold matches of the full input are wrapped in single newlines in the
output of the substitution pass. -/
theorem boldMatches_wrapped (l : List Char) :
    ∀ m, m ∈ boldMatches l →
      ∃ pre post, subBold l = pre ++ '\n' :: (m ++ '\n' :: post) := by
  intro m hm
  exact boldMatchesFuel_wrapped l.length l (le_refl _) m hm

/-- The collapsing pass leaves no run of three consecutive newlines. -/
theorem collapseNewlines_noRun3 (l : List Char) :
    containsRun3 (collapseNewlines l) = false := by
  induction l with
  | nil => rfl
  | cons c rest ih =>
      by_cases h : c = '\n' ∧ (collapseNewlines rest).take 2 = ['\n', '\n']
      · simp only [collapseNewlines, if_pos h]
        exact ih
      · simp only [collapseNewlines, if_neg h]
        have hhead : (c == '\n' && (collapseNewlines rest).take 2 == ['\n', '\n']) = false := by
          by_cases hc : c = '\n'
          · have ht : ¬ (collapseNewlines rest).take 2 = ['\n', '\n'] := fun ht => h ⟨hc, ht⟩
            simp [hc, ht]
          · simp [hc]
        simp [containsRun3, hhead, ih]

/-- Appending on the right preserves the presence of a triple newline. -/
theorem containsRun3_append_left (a b : List Char) :
    containsRun3 a = true → containsRun3 (a ++ b) = true := by
  induction a with
  | nil => intro h; simp [containsRun3] at h
  | cons c a2 ih =>
      intro h
      simp only [containsRun3, Bool.or_eq_true] at h
      simp only [List.cons_append, containsRun3, Bool.or_eq_true]
      cases h with
      | inl h =>
          left
          rw [Bool.and_eq_true] at h
          obtain ⟨h1, h2⟩ := h
          rw [beq_iff_eq] at h2
          cases a2 with
          | nil => simp at h2
          | cons x t =>
            cases t with
            | nil => simp at h2
            | cons y t2 =>
                simp only [List.take_cons, List.take] at h2
                have hx : x = '\n' ∧ y = '\n' := by
                  injection h2 with hx rest2
                  injection rest2 with hy
                  exact ⟨hx, hy⟩
                simp [h1, hx.1, hx.2, List.take]
      | inr h => right; exact ih h

/-- Appending on the left preserves the presence of a triple newline. -/
theorem containsRun3_append_right (a b : List Char) :
    containsRun3 b = true → containsRun3 (a ++ b) = true := by
  induction a with
  | nil => intro h; simpa using h
  | cons c a2 ih =>
      intro h
      simp only [List.cons_append, containsRun3, Bool.or_eq_true]
      right
      exact ih h

/-- Absence of a triple newline passes to any middle segment. -/
theorem containsRun3_middle (s r t : List Char)
    (h : containsRun3 (s ++ r ++ t) = false) : containsRun3 r = false := by
  by_contra hc
  have hr : containsRun3 r = true := by
    cases hcr : containsRun3 r with
    | false => exact absurd hcr hc
    | true => rfl
  have : containsRun3 (s ++ r ++ t) = true := by
    rw [List.append_assoc]
    exact containsRun3_append_right s (r ++ t) (containsRun3_append_left r t hr)
  rw [this] at h
  exact absurd h (by simp)

/-- The head of a `dropWhile` result fails the predicate. -/
theorem dropWhile_head_false (p : Char → Bool) :
    ∀ (l : List Char) c t, l.dropWhile p = c :: t → p c = false := by
  intro l
  induction l with
  | nil => intro c t h; simp at h
  | cons x rest ih =>
      intro c t h
      by_cases hp : p x = true
      · rw [List.dropWhile_cons, if_pos hp] at h
        exact ih c t h
      · rw [List.dropWhile_cons, if_neg hp] at h
        injection h with h1 _
        subst h1
        simpa using hp

/-- Stripping decomposes the input around the result, and the result has no
leading or trailing whitespace character. -/
theorem pyStripChars_spec (l : List Char) :
    (∃ s t, l = s ++ pyStripChars l ++ t) ∧
    (∀ c u, pyStripChars l = c :: u → pyIsSpace c = false) ∧
    (∀ u c, pyStripChars l = u ++ [c] → pyIsSpace c = false) := by
  have hsplit1 : l.takeWhile pyIsSpace ++ l.dropWhile pyIsSpace = l :=
    List.takeWhile_append_dropWhile _ _
  have hsplit2 : (l.dropWhile pyIsSpace).reverse.takeWhile pyIsSpace ++
      (l.dropWhile pyIsSpace).reverse.dropWhile pyIsSpace = (l.dropWhile pyIsSpace).reverse :=
    List.takeWhile_append_dropWhile _ _
  have hm0 : l.dropWhile pyIsSpace =
      pyStripChars l ++ ((l.dropWhile pyIsSpace).reverse.takeWhile pyIsSpace).reverse := by
    conv_lhs => rw [← List.reverse_reverse (l.dropWhile pyIsSpace), ← hsplit2]
    rw [List.reverse_append]
    rfl
  refine ⟨⟨l.takeWhile pyIsSpace,
      ((l.dropWhile pyIsSpace).reverse.takeWhile pyIsSpace).reverse, ?_⟩, ?_, ?_⟩
  · conv_lhs => rw [← hsplit1]
    rw [List.append_assoc, ← hm0]
  · intro c u hcu
    have h2 := hm0
    rw [hcu, List.cons_append] at h2
    exact dropWhile_head_false pyIsSpace l c _ h2
  · intro u c huc
    have hrev : (l.dropWhile pyIsSpace).reverse.dropWhile pyIsSpace = c :: u.reverse := by
      have : (pyStripChars l).reverse = c :: u.reverse := by
        rw [huc]
        simp
      simpa [pyStripChars] using this
    exact dropWhile_head_false pyIsSpace _ c _ hrev

/-- Removing a whitespace prefix preserves the absence of triple newlines. -/
theorem containsRun3_strip (l : List Char)
    (h : containsRun3 l = false) : containsRun3 (pyStripChars l) = false := by
  obtain ⟨⟨s, t, hdec⟩, _, _⟩ := pyStripChars_spec l
  rw [hdec] at h
  exact containsRun3_middle s _ t h

/-- Claim C8 counterexample: the first substitution inserts a single
newline, not a blank line, around each bold token.  On input `a**B**c` the
output is `a\n**B**\nc`: the bold token sits mid-string yet the output
contains no two consecutive newlines anywhere, so it is not surrounded by
a blank line. -/
theorem enforce_markdown_spacing_no_blank_line :
    enforce_markdown_spacing "a**B**c" = "a\n**B**\nc" ∧
    (enforce_markdown_spacing "a**B**c").data =
      ['a', '\n', '*', '*', 'B', '*', '*', '\n', 'c'] ∧
    containsRun2 (enforce_markdown_spacing "a**B**c").data = false := by
  refine ⟨?_, ?_, ?_⟩ <;> decide

/-- Claim C8 (amended): `enforce_markdown_spacing` wraps each bold-token
match with exactly one newline before and after at the substitution pass,
leaves no run of three or more consecutive newlines in the output, strips
all leading and trailing whitespace, and is deterministic. -/
theorem enforce_markdown_spacing_spec (s : String) :
    containsRun3 (enforce_markdown_spacing s).data = false ∧
    (∀ c u, (enforce_markdown_spacing s).data = c :: u → pyIsSpace c = false) ∧
    (∀ u c, (enforce_markdown_spacing s).data = u ++ [c] → pyIsSpace c = false) ∧
    (∀ m, m ∈ boldMatches s.data →
      ∃ pre post, subBold s.data = pre ++ '\n' :: (m ++ '\n' :: post)) ∧
    (∀ t : String, s = t → enforce_markdown_spacing s = enforce_markdown_spacing t) := by
  have hdata : (enforce_markdown_spacing s).data =
      pyStripChars (collapseNewlines (subBold s.data)) := rfl
  obtain ⟨_, hhead, hlast⟩ := pyStripChars_spec (collapseNewlines (subBold s.data))
  refine ⟨?_, ?_, ?_, ?_, ?_⟩
  · rw [hdata]
    exact containsRun3_strip _ (collapseNewlines_noRun3 _)
  · intro c u h
    rw [hdata] at h
    exact hhead c u h
  · intro u c h
    rw [hdata] at h
    exact hlast u c h
  · exact boldMatches_wrapped s.data
  · intro t h
    rw [h]

/-- Witness for `enforce_markdown_spacing_spec` at a concrete input with a
mid-string bold token. -/
theorem enforce_markdown_spacing_spec_witness :
    containsRun3 (enforce_markdown_spacing "x**B**y").data = false ∧
    (∃ pre post, subBold ("x**B**y".data) =
      pre ++ '\n' :: (('*' :: '*' :: 'B' :: '*' :: '*' :: []) ++ '\n' :: post)) :=
  ⟨(enforce_markdown_spacing_spec "x**B**y").1,
    (enforce_markdown_spacing_spec "x**B**y").2.2.2.1 _ (by decide)⟩

/-! ### Search-result merge, dedupe and rank
(src/accounts/rag_service.py and src/accounts/rag_pipeline.py) -/

/-- A transient Qdrant search result: an optional payload dictionary
(modelled as an association list whose values are strings or Python `None`)
and a relevance score (modelled as an integer; only its ordering matters). -/
structure SearchResult where
  payload : Option (List (String × Option String))
  score : Int
deriving DecidableEq

/-- Payload text of a result: models `(r.payload or {}).get("text")`
(src/accounts/rag_service.py line 38) and `r.payload["text"]`
(src/accounts/rag_pipeline.py line 241); the two coincide whenever the
`"text"` key is present, which the surrounding guard ensures. -/
def payloadText (r : SearchResult) : Option String :=
  ((r.payload.getD []).lookup "text").join

/-- Dedup pass of `search_qdrant_vectors` (src/accounts/rag_service.py lines
35-42): keep a result when its payload text is truthy (present and
non-empty) and has not been seen; first occurrence wins. -/
def dedupeService : List SearchResult → List String → List SearchResult
  | [], _ => []
  | r :: rest, seen =>
      match payloadText r with
      | some t =>
          if t ≠ "" ∧ t ∉ seen then r :: dedupeService rest (t :: seen)
          else dedupeService rest seen
      | none => dedupeService rest seen

/-- Post-processing of `search_qdrant_vectors` applied to the per-query
result lists returned by the Qdrant batch search: flatten, then dedupe by
payload text (src/accounts/rag_service.py lines 32-42).  The network call
itself is the environment boundary. -/
def search_qdrant_vectors (resultLists : List (List SearchResult)) : List SearchResult :=
  dedupeService resultLists.flatten []

/-- Guard of the second dedup pass (src/accounts/rag_pipeline.py line 240):
`r and r.payload and "text" in r.payload` — the result object is truthy, the
payload is a non-empty dictionary, and the `"text"` key is present. -/
def pipelineKeep (r : SearchResult) : Prop :=
  r.payload ≠ none ∧ r.payload.getD [] ≠ [] ∧ (r.payload.getD []).lookup "text" ≠ none

instance (r : SearchResult) : Decidable (pipelineKeep r) := by
  unfold pipelineKeep
  infer_instance

/-- Second dedup pass of `handle_rag_search` (src/accounts/rag_pipeline.py
lines 237-243), running over the already-deduped flat results. -/
def dedupePipeline : List SearchResult → List (Option String) → List SearchResult
  | [], _ => []
  | r :: rest, seen =>
      if pipelineKeep r ∧ payloadText r ∉ seen
      then r :: dedupePipeline rest (payloadText r :: seen)
      else dedupePipeline rest seen

/-- Sorting step (src/accounts/rag_pipeline.py line 245):
`sorted(unique_results, key=lambda r: r.score, reverse=True)` — Python`s
stable descending sort; a stable merge sort with the reversed comparator
realizes exactly that ordering. -/
def sortResults (l : List SearchResult) : List SearchResult :=
  l.mergeSort (fun a b => decide (b.score ≤ a.score))

/-- Sequencing of optional texts: `some` exactly when every text is
present. -/
def optionAll : List (Option String) → Option (List String)
  | [] => some []
  | none :: _ => none
  | some t :: rest => (optionAll rest).map (fun ts => t :: ts)

/-- Context construction (src/accounts/rag_pipeline.py lines 246-248):
join the texts of the first 10 sorted results with the visible separator;
`none` models the `TypeError` a Python `join` would raise on a `None` text. -/
def buildContext (rs : List SearchResult) : Option String :=
  (optionAll ((rs.take 10).map payloadText)).map (String.intercalate "\n\n---\n\n")

/-- The merge-dedupe-rank stage of `handle_rag_search`: flatten and dedupe
per-query result lists (via `search_qdrant_vectors`), dedupe again, sort by
descending score, and build the context block from the top 10. -/
def mergeRank (resultLists : List (List SearchResult)) :
    List SearchResult × Option String :=
  let flat := search_qdrant_vectors resultLists
  let unique := dedupePipeline flat []
  let ranked := sortResults unique
  (ranked, buildContext ranked)

/-- The service dedup pass keeps, for each non-empty unseen text, exactly
the first result carrying that text. -/
theorem dedupeService_filter (t : String) (ht : t ≠ "") :
    ∀ (l : List SearchResult) (seen : List String),
      (dedupeService l seen).filter (fun r => payloadText r == some t) =
        if t ∈ seen then []
        else (l.filter (fun r => payloadText r == some t)).take 1 := by
  intro l
  induction l with
  | nil =>
      intro seen
      simp [dedupeService]
  | cons r rest ih =>
      intro seen
      cases hpt : payloadText r with
      | none =>
          have hpred : (payloadText r == some t) = false := by simp [hpt]
          have hskip : ∀ X : List SearchResult,
              (r :: X).filter (fun r => payloadText r == some t) =
              X.filter (fun r => payloadText r == some t) := by
            intro X
            simp [List.filter_cons, hpred]
          simp only [dedupeService, hpt, hskip]
          exact ih seen
      | some t0 =>
          by_cases hcond : t0 ≠ "" ∧ t0 ∉ seen
          · simp only [dedupeService, hpt, if_pos hcond]
            by_cases htt : t0 = t
            · subst htt
              have hpred : (payloadText r == some t0) = true := by simp [hpt]
              have hrec := ih (t0 :: seen)
              rw [if_pos (List.mem_cons_self t0 seen)] at hrec
              have hkeep : ∀ X : List SearchResult,
                  (r :: X).filter (fun r2 => payloadText r2 == some t0) =
                  r :: X.filter (fun r2 => payloadText r2 == some t0) := by
                intro X
                simp [List.filter_cons, hpred]
              rw [hkeep, hkeep, hrec, if_neg hcond.2]
              rfl
            · have hpred : (payloadText r == some t) = false := by simp [hpt, htt]
              have hrec := ih (t0 :: seen)
              have hmem : (t ∈ t0 :: seen) ↔ t ∈ seen := by
                simp only [List.mem_cons]
                constructor
                · rintro (h | h)
                  · exact absurd h.symm htt
                  · exact h
                · intro h
                  exact Or.inr h
              have hskip : ∀ X : List SearchResult,
                  (r :: X).filter (fun r2 => payloadText r2 == some t) =
                  X.filter (fun r2 => payloadText r2 == some t) := by
                intro X
                simp [List.filter_cons, hpred]
              rw [hskip, hskip, hrec]
              by_cases hs : t ∈ seen
              · rw [if_pos (hmem.mpr hs), if_pos hs]
              · rw [if_neg (fun h => hs (hmem.mp h)), if_neg hs]
          · simp only [dedupeService, hpt, if_neg hcond]
            by_cases htt : t0 = t
            · subst htt
              have hseen : t0 ∈ seen := by
                by_contra hs
                exact hcond ⟨ht, hs⟩
              have hrec := ih seen
              rw [if_pos hseen] at hrec
              rw [if_pos hseen, hrec]
            · have hpred : (payloadText r == some t) = false := by simp [hpt, htt]
              have hskip : ∀ X : List SearchResult,
                  (r :: X).filter (fun r2 => payloadText r2 == some t) =
                  X.filter (fun r2 => payloadText r2 == some t) := by
                intro X
                simp [List.filter_cons, hpred]
              rw [hskip]
              exact ih seen

/-- The service dedup pass returns a sublist of its input. -/
theorem dedupeService_sublist : ∀ (l : List SearchResult) (seen : List String),
    (dedupeService l seen).Sublist l := by
  intro l
  induction l with
  | nil => intro seen; simp [dedupeService]
  | cons r rest ih =>
      intro seen
      cases hpt : payloadText r with
      | none =>
          simp only [dedupeService, hpt]
          exact (ih seen).cons r
      | some t0 =>
          by_cases hcond : t0 ≠ "" ∧ t0 ∉ seen
          · simp only [dedupeService, hpt, if_pos hcond]
            exact (ih (t0 :: seen)).cons₂ r
          · simp only [dedupeService, hpt, if_neg hcond]
            exact (ih seen).cons r

/-- Every kept result carries a truthy payload text outside `seen`. -/
theorem dedupeService_mem_text : ∀ (l : List SearchResult) (seen : List String)
    (r : SearchResult), r ∈ dedupeService l seen →
    ∃ t, payloadText r = some t ∧ t ≠ "" ∧ t ∉ seen := by
  intro l
  induction l with
  | nil => intro seen r h; simp [dedupeService] at h
  | cons r0 rest ih =>
      intro seen r h
      cases hpt : payloadText r0 with
      | none =>
          simp only [dedupeService, hpt] at h
          exact ih seen r h
      | some t0 =>
          simp only [dedupeService, hpt] at h
          by_cases hcond : t0 ≠ "" ∧ t0 ∉ seen
          · rw [if_pos hcond] at h
            rcases List.mem_cons.mp h with h | h
            · subst h
              exact ⟨t0, hpt, hcond⟩
            · obtain ⟨t, h1, h2, h3⟩ := ih (t0 :: seen) r h
              exact ⟨t, h1, h2, fun hs => h3 (List.mem_cons_of_mem _ hs)⟩
          · rw [if_neg hcond] at h
            exact ih seen r h

/-- The texts of the service dedup pass are pairwise distinct. -/
theorem dedupeService_textsNodup : ∀ (l : List SearchResult) (seen : List String),
    ((dedupeService l seen).map payloadText).Nodup := by
  intro l
  induction l with
  | nil => intro seen; simp [dedupeService]
  | cons r0 rest ih =>
      intro seen
      cases hpt : payloadText r0 with
      | none =>
          simp only [dedupeService, hpt]
          exact ih seen
      | some t0 =>
          simp only [dedupeService, hpt]
          by_cases hcond : t0 ≠ "" ∧ t0 ∉ seen
          · rw [if_pos hcond]
            rw [List.map_cons, List.nodup_cons]
            refine ⟨?_, ih (t0 :: seen)⟩
            intro hmem
            rw [hpt] at hmem
            obtain ⟨r, hr, hrt⟩ := List.mem_map.mp hmem
            obtain ⟨t, h1, _, h3⟩ := dedupeService_mem_text rest (t0 :: seen) r hr
            rw [h1] at hrt
            have : t = t0 := by injection hrt
            subst this
            exact h3 (List.mem_cons_self t seen)
          · rw [if_neg hcond]
            exact ih seen

/-- A result whose payload text is present satisfies the guard of the
second dedup pass. -/
theorem pipelineKeep_of_text (r : SearchResult) (t : String)
    (h : payloadText r = some t) : pipelineKeep r := by
  unfold payloadText at h
  rw [Option.join_eq_some] at h
  refine ⟨?_, ?_, ?_⟩
  · intro hp
    rw [hp] at h
    simp at h
  · intro hp
    rw [hp] at h
    simp at h
  · rw [h]
    simp

/-- On a list whose elements all carry distinct present texts not in
`seen`, the second dedup pass is the identity. -/
theorem dedupePipeline_id : ∀ (u : List SearchResult) (seen : List (Option String)),
    (∀ r ∈ u, ∃ t, payloadText r = some t) →
    (u.map payloadText).Nodup →
    (∀ r ∈ u, payloadText r ∉ seen) →
    dedupePipeline u seen = u := by
  intro u
  induction u with
  | nil => intro seen _ _ _; rfl
  | cons r rest ih =>
      intro seen htexts hnodup hseen
      obtain ⟨t, ht⟩ := htexts r (List.mem_cons_self r rest)
      have hkeep : pipelineKeep r := pipelineKeep_of_text r t ht
      rw [dedupePipeline, if_pos ⟨hkeep, hseen r (List.mem_cons_self r rest)⟩]
      congr 1
      apply ih
      · intro r2 h2
        exact htexts r2 (List.mem_cons_of_mem _ h2)
      · exact (List.nodup_cons.mp (by simpa using hnodup)).2
      · intro r2 h2
        rw [List.mem_cons]
        rintro (hc | hc)
        · have : payloadText r ∈ rest.map payloadText :=
            List.mem_map.mpr ⟨r2, h2, hc⟩
          exact (List.nodup_cons.mp (by simpa using hnodup)).1 this
        · exact hseen r2 (List.mem_cons_of_mem _ h2) hc

/-- Sorting permutes the input. -/
theorem sortResults_perm (l : List SearchResult) : (sortResults l).Perm l :=
  List.mergeSort_perm l _

/-- Sorting yields pairwise descending scores. -/
theorem sortResults_sorted (l : List SearchResult) :
    (sortResults l).Pairwise (fun a b => b.score ≤ a.score) := by
  have htrans : ∀ a b c : SearchResult, decide (b.score ≤ a.score) = true →
      decide (c.score ≤ b.score) = true → decide (c.score ≤ a.score) = true := by
    intro a b c h1 h2
    simp only [decide_eq_true_eq] at h1 h2 ⊢
    omega
  have htotal : ∀ a b : SearchResult,
      (decide (b.score ≤ a.score) || decide (a.score ≤ b.score)) = true := by
    intro a b
    simp only [Bool.or_eq_true, decide_eq_true_eq]
    omega
  have h := List.sorted_mergeSort htrans htotal l
  exact h.imp (fun hab => by simpa using hab)

/-- Filters agree across a permutation when the filtered set has at most
one element. -/
theorem filter_eq_of_perm_of_le_one (p : SearchResult → Bool)
    (l1 l2 : List SearchResult) (hp : l1.Perm l2)
    (hlen : (l2.filter p).length ≤ 1) : l1.filter p = l2.filter p := by
  have hperm := hp.filter p
  cases hf : l2.filter p with
  | nil =>
      rw [hf] at hperm
      exact hperm.eq_nil
  | cons a rest =>
      cases rest with
      | nil =>
          rw [hf] at hperm
          exact List.perm_singleton.mp hperm
      | cons b rest2 =>
          rw [hf] at hlen
          simp at hlen

/-- Sequencing texts that are all present succeeds elementwise. -/
theorem optionAll_of_total (xs : List SearchResult)
    (h : ∀ r ∈ xs, ∃ t, payloadText r = some t) :
    optionAll (xs.map payloadText) =
      some (xs.map (fun r => (payloadText r).getD "")) := by
  induction xs with
  | nil => rfl
  | cons r rest ih =>
      obtain ⟨t, ht⟩ := h r (List.mem_cons_self r rest)
      have hrest := ih (fun r2 h2 => h r2 (List.mem_cons_of_mem _ h2))
      simp [optionAll, ht, hrest]

/-- Claim C5: the merge step of `handle_rag_search` flattens the per-query
result lists, drops results without truthy payload text, keeps exactly one
result per distinct text (the first occurrence in flattened order), sorts
the survivors by descending score, and joins the texts of the top 10 with
the visible separator. -/
theorem mergeRank_spec (resultLists : List (List SearchResult)) :
    ((mergeRank resultLists).1.map payloadText).Nodup ∧
    (∀ r ∈ (mergeRank resultLists).1, r ∈ resultLists.flatten ∧
        ∃ t, payloadText r = some t ∧ t ≠ "") ∧
    (∀ t : String, t ≠ "" →
        (mergeRank resultLists).1.filter (fun r => payloadText r == some t) =
          (resultLists.flatten.filter (fun r => payloadText r == some t)).take 1) ∧
    (mergeRank resultLists).1.Pairwise (fun a b => b.score ≤ a.score) ∧
    ((mergeRank resultLists).1.take 10).length ≤ 10 ∧
    (mergeRank resultLists).2 = some (String.intercalate "\n\n---\n\n"
        (((mergeRank resultLists).1.take 10).map (fun r => (payloadText r).getD ""))) := by
  have hu2 : dedupePipeline (search_qdrant_vectors resultLists) [] =
      search_qdrant_vectors resultLists := by
    apply dedupePipeline_id
    · intro r hr
      obtain ⟨t, h1, _, _⟩ :=
        dedupeService_mem_text resultLists.flatten [] r hr
      exact ⟨t, h1⟩
    · exact dedupeService_textsNodup resultLists.flatten []
    · intro r _ h
      simp at h
  have h1 : (mergeRank resultLists).1 =
      sortResults (search_qdrant_vectors resultLists) := by
    simp only [mergeRank, hu2]
  have hmem : ∀ r, r ∈ (mergeRank resultLists).1 ↔
      r ∈ search_qdrant_vectors resultLists := by
    intro r
    rw [h1]
    exact (sortResults_perm _).mem_iff
  refine ⟨?_, ?_, ?_, ?_, ?_, ?_⟩
  · rw [h1]
    have hpm : ((sortResults (search_qdrant_vectors resultLists)).map payloadText).Perm
        ((search_qdrant_vectors resultLists).map payloadText) :=
      (sortResults_perm _).map payloadText
    exact hpm.nodup_iff.mpr (dedupeService_textsNodup resultLists.flatten [])
  · intro r hr
    have hr2 := (hmem r).mp hr
    obtain ⟨t, ht1, ht2, _⟩ :=
      dedupeService_mem_text resultLists.flatten [] r hr2
    exact ⟨(dedupeService_sublist resultLists.flatten []).subset hr2, t, ht1, ht2⟩
  · intro t ht
    have hfil := dedupeService_filter t ht resultLists.flatten []
    rw [if_neg (by simp)] at hfil
    have hfil2 : (search_qdrant_vectors resultLists).filter
        (fun r => payloadText r == some t) =
        (resultLists.flatten.filter (fun r => payloadText r == some t)).take 1 := by
      rw [search_qdrant_vectors]
      exact hfil
    rw [h1]
    rw [filter_eq_of_perm_of_le_one _ _ _ (sortResults_perm _)
      (by rw [hfil2]; exact List.length_take_le 1 _), hfil2]
  · rw [h1]
    exact sortResults_sorted _
  · exact List.length_take_le 10 _
  · have hctx : (mergeRank resultLists).2 = buildContext (mergeRank resultLists).1 := by
      simp only [mergeRank]
    have htot : ∀ r ∈ (mergeRank resultLists).1.take 10,
        ∃ t, payloadText r = some t := by
      intro r hr
      have hr2 := (hmem r).mp (List.mem_of_mem_take hr)
      obtain ⟨t, ht1, _, _⟩ :=
        dedupeService_mem_text resultLists.flatten [] r hr2
      exact ⟨t, ht1⟩
    rw [hctx, buildContext, optionAll_of_total _ htot]
    rfl

/-- Sample per-query result lists with a duplicated payload text at two
different scores. -/
def sampleResultLists : List (List SearchResult) :=
  [[⟨some [("text", some "A")], 5⟩, ⟨some [("text", some "B")], 9⟩],
   [⟨some [("text", some "A")], 7⟩]]

/-- Witness for `mergeRank_spec` on concrete duplicated results. -/
theorem mergeRank_spec_witness :
    ((mergeRank sampleResultLists).1.map payloadText).Nodup ∧
    ("A" : String) ≠ "" ∧
    (mergeRank sampleResultLists).1.filter (fun r => payloadText r == some "A") =
      (sampleResultLists.flatten.filter (fun r => payloadText r == some "A")).take 1 ∧
    (mergeRank sampleResultLists).1.Pairwise (fun a b => b.score ≤ a.score) :=
  ⟨(mergeRank_spec sampleResultLists).1, by decide,
    (mergeRank_spec sampleResultLists).2.2.1 "A" (by decide),
    (mergeRank_spec sampleResultLists).2.2.2.1⟩

/-! ### Self-healing check of `handle_rag_search`
(src/accounts/rag_pipeline.py lines 163-217) -/

/-- Evaluation of a Qdrant `must`-filter (a conjunction of exact-match
field conditions) against a point payload. -/
def matchesFilter (payload : List (String × Option String))
    (conds : List (String × String)) : Bool :=
  conds.all (fun kv => payload.lookup kv.1 == some (some kv.2))

/-- The count-probe filter built by `handle_rag_search`
(src/accounts/rag_pipeline.py lines 166-175): a single `chapter_id`
condition, with no `user_id` condition. -/
def probeFilter (chapter_id : String) : List (String × String) :=
  [("chapter_id", chapter_id)]

/-- Embedding of `make_chapter_user_filter` (src/accounts/rag_service.py
lines 56-60): both `chapter_id` and `user_id` must match. -/
def make_chapter_user_filter (chapter_id user_id : String) :
    List (String × String) :=
  [("chapter_id", chapter_id), ("user_id", user_id)]

/-- The vector-store `count` operation: number of stored payloads matching
the filter. -/
def countPoints (store : List (List (String × Option String)))
    (conds : List (String × String)) : Nat :=
  (store.filter (fun p => matchesFilter p conds)).length

/-- Environment of one `handle_rag_search` call: the vector-store state (or
an `UnexpectedResponse` status code raised by the store), the result of the
`Document.objects.get(chapter__id=...)` lookup, and the oracle answers of
the downstream external calls. -/
structure SearchEnv where
  store : Except Nat (List (List (String × Option String)))
  docForChapter : Option Nat
  expansions : List String
  queryVectors : List (List Int)
  searchLists : List (List SearchResult)
  llmAnswer : String

/-- Side effects of one `handle_rag_search` call. -/
structure RagEffects where
  reingested : Option Nat
  expandCalled : Bool
  embedCalled : Bool
  searchCalled : Bool
deriving DecidableEq

/-- Message of the zero-count self-healing branch
(src/accounts/rag_pipeline.py lines 187-190). -/
def refreshMessage : String :=
  "The data for this chapter is being refreshed. Please try your question again in a minute."

/-- Message of the missing-collection (404) self-healing branch
(src/accounts/rag_pipeline.py lines 207-210). -/
def initMessage : String :=
  "The workspace is being initialized. Please try your question again in a minute."

/-- Message when the chapter has no source document
(src/accounts/rag_pipeline.py lines 192-195 and 211-215). -/
def reuploadMessage : String :=
  "Sorry, the source document for this chapter could not be found. Please re-upload it."

/-- Embedding of `handle_rag_search` (src/accounts/rag_pipeline.py lines
158-462): probe the vector count for the chapter; on zero count or a 404
from the store, look up the source document and either trigger re-ingestion
and return an immediate message, or ask for a re-upload; any other store
error re-raises.  Otherwise expand, embed, search, merge and answer (the
merge uses `search_qdrant_vectors`, `dedupePipeline`, `sortResults` and
`buildContext`; the final text is the formatted model answer). -/
def handle_rag_search (env : SearchEnv) (query chapter_id user_id : String) :
    Except Nat String × RagEffects :=
  match env.store with
  | Except.error status =>
      if status = 404 then
        match env.docForChapter with
        | some docId => (Except.ok initMessage, ⟨some docId, false, false, false⟩)
        | none => (Except.ok reuploadMessage, ⟨none, false, false, false⟩)
      else (Except.error status, ⟨none, false, false, false⟩)
  | Except.ok points =>
      if countPoints points (probeFilter chapter_id) = 0 then
        match env.docForChapter with
        | some docId => (Except.ok refreshMessage, ⟨some docId, false, false, false⟩)
        | none => (Except.ok reuploadMessage, ⟨none, false, false, false⟩)
      else
        match buildContext (sortResults
            (dedupePipeline (search_qdrant_vectors env.searchLists) [])) with
        | some _ =>
            (Except.ok (enforce_markdown_spacing env.llmAnswer), ⟨none, true, true, true⟩)
        | none => (Except.error 0, ⟨none, true, true, true⟩)

/-- Claim C6: on a zero vector count for the chapter or a 404 from the
store, `handle_rag_search` performs no expansion, embedding or search; if
the source document exists it marks it for re-ingestion and returns an
immediate message, otherwise it returns the re-upload message; neither case
raises.  Search runs only when the probe found a nonzero count. -/
theorem handle_rag_search_self_healing (env : SearchEnv) (q c u : String) :
    ((env.store = Except.error 404 ∨
        (∃ pts, env.store = Except.ok pts ∧ countPoints pts (probeFilter c) = 0)) →
      (handle_rag_search env q c u).2.expandCalled = false ∧
      (handle_rag_search env q c u).2.embedCalled = false ∧
      (handle_rag_search env q c u).2.searchCalled = false ∧
      (∀ d, env.docForChapter = some d →
        (handle_rag_search env q c u).2.reingested = some d ∧
        ((handle_rag_search env q c u).1 = Except.ok refreshMessage ∨
         (handle_rag_search env q c u).1 = Except.ok initMessage)) ∧
      (env.docForChapter = none →
        (handle_rag_search env q c u).2.reingested = none ∧
        (handle_rag_search env q c u).1 = Except.ok reuploadMessage) ∧
      (∃ msg, (handle_rag_search env q c u).1 = Except.ok msg)) ∧
    ((handle_rag_search env q c u).2.searchCalled = true →
      ∃ pts, env.store = Except.ok pts ∧ countPoints pts (probeFilter c) ≠ 0) := by
  constructor
  · intro hfail
    have hbranch : ∀ dres : Prod (Except Nat String) RagEffects,
        (∀ d, env.docForChapter = some d → dres = (Except.ok refreshMessage, ⟨some d, false, false, false⟩) ∨
          dres = (Except.ok initMessage, ⟨some d, false, false, false⟩)) →
        (env.docForChapter = none → dres = (Except.ok reuploadMessage, ⟨none, false, false, false⟩)) →
        (handle_rag_search env q c u) = dres →
        (handle_rag_search env q c u).2.expandCalled = false ∧
        (handle_rag_search env q c u).2.embedCalled = false ∧
        (handle_rag_search env q c u).2.searchCalled = false ∧
        (∀ d, env.docForChapter = some d →
          (handle_rag_search env q c u).2.reingested = some d ∧
          ((handle_rag_search env q c u).1 = Except.ok refreshMessage ∨
           (handle_rag_search env q c u).1 = Except.ok initMessage)) ∧
        (env.docForChapter = none →
          (handle_rag_search env q c u).2.reingested = none ∧
          (handle_rag_search env q c u).1 = Except.ok reuploadMessage) ∧
        (∃ msg, (handle_rag_search env q c u).1 = Except.ok msg) := by
      intro dres hsome hnone heq
      cases hdoc : env.docForChapter with
      | some d =>
          rcases hsome d hdoc with h | h <;>
            rw [heq, h] <;>
            exact ⟨rfl, rfl, rfl, fun d2 hd2 => by
                injection hd2 with hd2
                subst hd2
                exact ⟨rfl, by simp⟩,
              fun hn => absurd hn (by simp),
              ⟨_, rfl⟩⟩
      | none =>
          rw [heq, hnone hdoc]
          exact ⟨rfl, rfl, rfl,
            fun d2 hd2 => absurd hd2 (by simp),
            fun _ => ⟨rfl, rfl⟩, ⟨_, rfl⟩⟩
    rcases hfail with h404 | ⟨pts, hpts, hcount⟩
    · apply hbranch (handle_rag_search env q c u)
      · intro d hd
        right
        simp [handle_rag_search, h404, hd]
      · intro hd
        simp [handle_rag_search, h404, hd]
      · rfl
    · apply hbranch (handle_rag_search env q c u)
      · intro d hd
        left
        simp [handle_rag_search, hpts, hcount, hd]
      · intro hd
        simp [handle_rag_search, hpts, hcount, hd]
      · rfl
  · intro hsearch
    cases hst : env.store with
    | error status =>
        exfalso
        by_cases h404 : status = 404
        · cases hdoc : env.docForChapter <;>
            simp [handle_rag_search, hst, h404, hdoc] at hsearch
        · simp [handle_rag_search, hst, h404] at hsearch
    | ok pts =>
        refine ⟨pts, rfl, ?_⟩
        intro hcount
        cases hdoc : env.docForChapter <;>
          simp [handle_rag_search, hst, hcount, hdoc] at hsearch

/-- Environment with an empty vector store and an existing source document. -/
def emptyStoreEnv : SearchEnv :=
  ⟨Except.ok [], some 7, [], [], [], "ans"⟩

/-- Witness for `handle_rag_search_self_healing` on an empty store. -/
theorem handle_rag_search_self_healing_witness :
    ((handle_rag_search emptyStoreEnv "q" "ch" "u").1 = Except.ok refreshMessage ∨
     (handle_rag_search emptyStoreEnv "q" "ch" "u").1 = Except.ok initMessage) ∧
    (handle_rag_search emptyStoreEnv "q" "ch" "u").2.reingested = some 7 ∧
    (handle_rag_search emptyStoreEnv "q" "ch" "u").2.expandCalled = false ∧
    (handle_rag_search emptyStoreEnv "q" "ch" "u").2.embedCalled = false ∧
    (handle_rag_search emptyStoreEnv "q" "ch" "u").2.searchCalled = false := by
  have h := (handle_rag_search_self_healing emptyStoreEnv "q" "ch" "u").1
    (Or.inr ⟨[], rfl, rfl⟩)
  obtain ⟨hexp, hemb, hsearch, hsome, _, _⟩ := h
  obtain ⟨hre, hmsg⟩ := hsome 7 rfl
  exact ⟨hmsg, hre, hexp, hemb, hsearch⟩

/-- When the probe count is nonzero the pipeline expands, embeds and
searches, and triggers no re-ingestion. -/
theorem handle_rag_search_effects_of_nonzero (env : SearchEnv) (q c u : String)
    (pts : List (List (String × Option String)))
    (hst : env.store = Except.ok pts)
    (hc : ¬ countPoints pts (probeFilter c) = 0) :
    (handle_rag_search env q c u).2 =
      ⟨none, true, true, true⟩ := by
  simp only [handle_rag_search, hst]
  rw [if_neg hc]
  cases hb : buildContext (sortResults
      (dedupePipeline (search_qdrant_vectors env.searchLists) [])) with
  | some ctx => rfl
  | none => rfl

/-- A stored point whose payload carries the probed chapter but a different
user. -/
def strayPoint : List (String × Option String) :=
  [("chapter_id", some "ch1"), ("user_id", some "u2")]

/-- Environment whose store holds only the stray point. -/
def strayEnv : SearchEnv :=
  ⟨Except.ok [strayPoint], none, [], [], [], "answer"⟩

/-- Claim C9: the self-healing probe filter is built from `chapter_id`
alone, with no `user_id` condition; a store holding only a point with the
target chapter but a different user yields a nonzero probe count, so the
pipeline proceeds to search instead of re-ingesting, although the querying
user matches no stored point. -/
theorem probe_filter_ignores_user :
    probeFilter "ch1" = [("chapter_id", "ch1")] ∧
    (probeFilter "ch1").lookup "user_id" = none ∧
    (make_chapter_user_filter "ch1" "u1").lookup "user_id" = some "u1" ∧
    countPoints [strayPoint] (probeFilter "ch1") = 1 ∧
    matchesFilter strayPoint (make_chapter_user_filter "ch1" "u1") = false ∧
    (handle_rag_search strayEnv "q" "ch1" "u1").2.searchCalled = true ∧
    (handle_rag_search strayEnv "q" "ch1" "u1").2.reingested = none := by
  have heff := handle_rag_search_effects_of_nonzero strayEnv "q" "ch1" "u1"
    [strayPoint] rfl (by decide)
  refine ⟨rfl, by decide, by decide, by decide, by decide, ?_, ?_⟩
  · rw [heff]
  · rw [heff]

/-! ### Ingestion orchestrator (src/accounts/tasks.py) -/

/-- Document status constants (src/accounts/models.py lines 82-85). -/
inductive DocStatus
  | PENDING
  | PROCESSING
  | COMPLETED
  | FAILED
deriving DecidableEq

/-- Python `str.strip()` on strings. -/
def pyStripStr (s : String) : String := String.mk (pyStripChars s.data)

/-- Embedding batch size constant (src/accounts/tasks.py line 25); in the
source it is used only to batch the vector-store upsert calls. -/
def BATCH_SIZE : Nat := 100

/-- Chunk-cap constant (src/accounts/tasks.py line 36).  It is defined and
never referenced anywhere else in the repository. -/
def MAX_CHUNKS_PER_DOCUMENT : Nat := 1000

/-- The Document record fields read by `process_document_ingestion`; an
empty `extracted_text` models an absent cached text (Python falsy). -/
structure IngestDoc where
  extracted_text : String
  file_type : String
  userId : String
  chapterId : Option String
  docId : String

/-- Environment of one ingestion run: the document record, the oracle
answers of `get_text_from_file` and of the embedding service, the tokenizer,
and the stream of `uuid.uuid4()` draws (as an id generator consumed
sequentially from an offset). -/
structure IngestEnv where
  doc : IngestDoc
  extractResult : String
  tokenizer : Tokenizer
  embedOutcome : Except String (List (List Int))
  idGen : Nat → Nat

/-- A Qdrant point assembled by the ingestion loop. -/
structure IngestPoint where
  id : Nat
  vector : List Int
  payload : List (String × Option String)
deriving DecidableEq, Inhabited

/-- Observable effects of one ingestion run: the sequence of writes to the
document status field, the cached-text write, the contents of each
embedding-service call, and the points of each vector-store upsert call. -/
structure IngestEffects where
  statusWrites : List DocStatus
  extractedTextWrite : Option String
  embedCalls : List (List String)
  upsertCalls : List (List IngestPoint)
  succeeded : Bool
deriving DecidableEq

/-- Payload of one chunk point (src/accounts/tasks.py lines 231-238):
text, document id, file type and user id, plus the chapter id when the
document has a chapter. -/
def payloadOfChunk (doc : IngestDoc) (chunk : String) : List (String × Option String) :=
  [("text", some chunk), ("document_id", some doc.docId),
   ("file_type", some doc.file_type), ("user_id", some doc.userId)] ++
  (match doc.chapterId with
   | some ch => [("chapter_id", some ch)]
   | none => [])

/-- Point construction of the ingestion loop (src/accounts/tasks.py lines
229-245): `zip(text_chunks, all_embeddings)` pairs chunk `i` with vector
`i`, and each point gets the next fresh `uuid.uuid4()` draw as its id. -/
def mkPoints (idGen : Nat → Nat) (idStart : Nat) (doc : IngestDoc)
    (chunks : List String) (embeddings : List (List Int)) : List IngestPoint :=
  (List.zip chunks embeddings).enum.map
    (fun p => ⟨idGen (idStart + p.1), p.2.2, payloadOfChunk doc p.2.1⟩)

/-- The upsert batching loop (src/accounts/tasks.py lines 229-260): points
accumulate into a batch; each time the batch reaches `BATCH_SIZE` it is
upserted and reset, and a final non-empty batch is upserted at the end. -/
def upsertLoop : List IngestPoint → List IngestPoint → List (List IngestPoint)
  | [], batch => if batch.isEmpty then [] else [batch]
  | p :: rest, batch =>
      let b := batch ++ [p]
      if BATCH_SIZE ≤ b.length then b :: upsertLoop rest []
      else upsertLoop rest b

/-- Embedding of `process_document_ingestion` (src/accounts/tasks.py lines
189-289).  The run extracts and caches text when absent, fails on blank
text or empty chunking, issues ONE embedding call with all chunk texts,
fails if the embedding call fails or returns no vectors (the
`all_embeddings[0]` IndexError), builds one point per chunk-vector pair and
upserts them in batches, then writes COMPLETED; any failure writes FAILED.
The task never writes PROCESSING.  The unreachable `none` chunker branch
(the loop diverges, impossible at the default 384/50 configuration) is the
run that never returns.  Celery retry scheduling and channel notifications
are outside the model. -/
def process_document_ingestion (env : IngestEnv) (idStart : Nat) : IngestEffects :=
  let t0 := env.doc.extracted_text
  let textWrite : Option String := if t0 = "" then some env.extractResult else none
  let t := if t0 = "" then env.extractResult else t0
  if pyStripStr t = "" then
    ⟨[DocStatus.FAILED], textWrite, [], [], false⟩
  else
    match chunk_text_by_token t (some env.tokenizer) 384 50 with
    | none => ⟨[], textWrite, [], [], false⟩
    | some chunks =>
        if chunks = [] then ⟨[DocStatus.FAILED], textWrite, [], [], false⟩
        else
          match env.embedOutcome with
          | Except.error _ => ⟨[DocStatus.FAILED], textWrite, [chunks], [], false⟩
          | Except.ok embeddings =>
              if embeddings = [] then ⟨[DocStatus.FAILED], textWrite, [chunks], [], false⟩
              else
                ⟨[DocStatus.COMPLETED], textWrite, [chunks],
                  upsertLoop (mkPoints env.idGen idStart env.doc chunks embeddings) [],
                  true⟩

/-- Status writes of `create_chapter_from_document` (src/accounts/tasks.py
lines 133-186): PROCESSING is assigned first, before the `try` block; a
successful body performs no further status assignment, a failing body
assigns FAILED. -/
def create_chapter_from_document (succeeded : Bool) : List DocStatus :=
  DocStatus.PROCESSING :: (if succeeded then [] else [DocStatus.FAILED])

/-- At the default configuration (384, 50) the chunker always terminates. -/
theorem chunk_default_total (t : String) (tk : Tokenizer) :
    ∃ chunks, chunk_text_by_token t (some tk) 384 50 = some chunks := by
  by_cases ht : t = ""
  · exact ⟨[], by simp [chunk_text_by_token, ht]⟩
  · obtain ⟨ws, hws, _, _⟩ :=
      chunkFuel_spec (tk.encode t) 384 50 (by omega) (tk.encode t).length 0 (by omega)
    refine ⟨ws.map tk.decode, ?_⟩
    have hwin : chunkWindows (tk.encode t) 384 50 = some ws := by
      rw [chunkWindows]
      simpa using hws
    simp [chunk_text_by_token, ht, hwin]

/-- Case shape of one ingestion run: a success record carrying the single
embedding call and the batched upsert of all points, or a failure record
with at most the one embedding call and no upsert. -/
theorem process_shape (env : IngestEnv) (idStart : Nat) :
    ∃ W : Option String,
      (∃ chunks embeddings,
        chunk_text_by_token
          (if env.doc.extracted_text = "" then env.extractResult else env.doc.extracted_text)
          (some env.tokenizer) 384 50 = some chunks ∧
        env.embedOutcome = Except.ok embeddings ∧
        process_document_ingestion env idStart =
          ⟨[DocStatus.COMPLETED], W, [chunks],
            upsertLoop (mkPoints env.idGen idStart env.doc chunks embeddings) [], true⟩) ∨
      (∃ chunks,
        chunk_text_by_token
          (if env.doc.extracted_text = "" then env.extractResult else env.doc.extracted_text)
          (some env.tokenizer) 384 50 = some chunks ∧
        process_document_ingestion env idStart =
          ⟨[DocStatus.FAILED], W, [chunks], [], false⟩) ∨
      process_document_ingestion env idStart = ⟨[DocStatus.FAILED], W, [], [], false⟩ := by
  refine ⟨if env.doc.extracted_text = "" then some env.extractResult else none, ?_⟩
  obtain ⟨chunks, hch⟩ := chunk_default_total
    (if env.doc.extracted_text = "" then env.extractResult else env.doc.extracted_text)
    env.tokenizer
  by_cases hstrip : pyStripStr
      (if env.doc.extracted_text = "" then env.extractResult else env.doc.extracted_text) = ""
  · right; right
    simp only [process_document_ingestion, if_pos hstrip]
  · by_cases hchne : chunks = []
    · right; right
      simp only [process_document_ingestion, if_neg hstrip, hch, if_pos hchne]
    · cases hemb : env.embedOutcome with
      | error e =>
          right; left
          refine ⟨chunks, hch, ?_⟩
          simp only [process_document_ingestion, if_neg hstrip, hch, if_neg hchne, hemb]
      | ok embeddings =>
          by_cases hembne : embeddings = []
          · right; left
            refine ⟨chunks, hch, ?_⟩
            simp only [process_document_ingestion, if_neg hstrip, hch, if_neg hchne, hemb,
              if_pos hembne]
          · left
            refine ⟨chunks, embeddings, hch, rfl, ?_⟩
            simp only [process_document_ingestion, if_neg hstrip, hch, if_neg hchne, hemb,
              if_neg hembne]

/-- The upsert batches concatenate back to the full point list. -/
theorem upsertLoop_flatten : ∀ (pts batch : List IngestPoint),
    (upsertLoop pts batch).flatten = batch ++ pts := by
  intro pts
  induction pts with
  | nil =>
      intro batch
      by_cases hb : batch.isEmpty
      · simp only [upsertLoop, if_pos hb]
        simp [List.isEmpty_iff.mp hb]
      · simp only [upsertLoop, if_neg hb]
        simp
  | cons p rest ih =>
      intro batch
      by_cases hfull : BATCH_SIZE ≤ (batch ++ [p]).length
      · simp only [upsertLoop, if_pos hfull]
        rw [List.flatten_cons, ih []]
        simp
      · simp only [upsertLoop, if_neg hfull]
        rw [ih (batch ++ [p])]
        simp

/-- Every upsert batch holds at most `BATCH_SIZE` points. -/
theorem upsertLoop_batch_le : ∀ (pts batch : List IngestPoint),
    batch.length < BATCH_SIZE →
    ∀ b ∈ upsertLoop pts batch, b.length ≤ BATCH_SIZE := by
  intro pts
  induction pts with
  | nil =>
      intro batch hlt b hb
      by_cases he : batch.isEmpty
      · rw [upsertLoop, if_pos he] at hb
        simp at hb
      · rw [upsertLoop, if_neg he] at hb
        simp at hb
        subst hb
        omega
  | cons p rest ih =>
      intro batch hlt b hb
      by_cases hfull : BATCH_SIZE ≤ (batch ++ [p]).length
      · rw [upsertLoop, if_pos hfull] at hb
        rcases List.mem_cons.mp hb with h | h
        · subst h
          simp only [List.length_append, List.length_cons, List.length_nil] at hfull ⊢
          omega
        · exact ih [] (by simp [BATCH_SIZE]) b h
      · rw [upsertLoop, if_neg hfull] at hb
        exact ih (batch ++ [p]) (by omega) b hb

/-- Number of points built by the ingestion loop. -/
theorem mkPoints_length (idGen : Nat → Nat) (idStart : Nat) (doc : IngestDoc)
    (chunks : List String) (embeddings : List (List Int)) :
    (mkPoints idGen idStart doc chunks embeddings).length =
      min chunks.length embeddings.length := by
  simp [mkPoints]

/-- Content of the `i`-th point: the `i`-th fresh id, the `i`-th vector and
the payload of the `i`-th chunk. -/
theorem mkPoints_getD (idGen : Nat → Nat) (idStart : Nat) (doc : IngestDoc)
    (chunks : List String) (embeddings : List (List Int)) (i : Nat)
    (h : i < (mkPoints idGen idStart doc chunks embeddings).length) :
    (mkPoints idGen idStart doc chunks embeddings).getD i default =
      ⟨idGen (idStart + i), embeddings.getD i [],
        payloadOfChunk doc (chunks.getD i "")⟩ := by
  rw [mkPoints_length] at h
  have hc : i < chunks.length := by omega
  have he : i < embeddings.length := by omega
  have hz : i < (List.zip chunks embeddings).length := by
    rw [List.length_zip]
    omega
  have hze : i < (List.zip chunks embeddings).enum.length := by
    rw [List.enum_length]
    exact hz
  have hm : i < (mkPoints idGen idStart doc chunks embeddings).length := by
    rw [mkPoints_length]
    omega
  rw [List.getD_eq_getElem _ _ hm, List.getD_eq_getElem _ _ hc, List.getD_eq_getElem _ _ he]
  simp [mkPoints, List.getElem_zip]

/-- The ids of the built points are the consecutive generator draws. -/
theorem mkPoints_ids (idGen : Nat → Nat) (idStart : Nat) (doc : IngestDoc)
    (chunks : List String) (embeddings : List (List Int)) :
    (mkPoints idGen idStart doc chunks embeddings).map (fun p => p.id) =
      (List.range (min chunks.length embeddings.length)).map
        (fun i => idGen (idStart + i)) := by
  apply List.ext_getElem
  · simp [mkPoints]
  · intro i h1 h2
    simp only [List.getElem_map, List.getElem_range]
    simp [mkPoints, List.getElem_zip]

/-- Sample ingestion environment for concrete evaluations: cached text
`"hi"`, a working embedding service, sequential point ids. -/
def sampleIngestEnv : IngestEnv :=
  ⟨⟨"hi", "txt", "u1", some "ch1", "d1"⟩, "", asciiTokenizer,
    Except.ok [[0], [1]], fun i => i⟩

/-- Claim C3 counterexample: a successful run of
`process_document_ingestion` writes COMPLETED as its only status mutation;
its first status write is not PROCESSING, and PROCESSING is never written
by the task. -/
theorem ingestion_skips_processing :
    (process_document_ingestion sampleIngestEnv 0).statusWrites = [DocStatus.COMPLETED] ∧
    (process_document_ingestion sampleIngestEnv 0).statusWrites.head? ≠
      some DocStatus.PROCESSING ∧
    DocStatus.PROCESSING ∉ (process_document_ingestion sampleIngestEnv 0).statusWrites := by
  refine ⟨?_, ?_, ?_⟩ <;> decide

/-- Claim C3 (amended): `process_document_ingestion` never writes
PROCESSING — its status writes are exactly [COMPLETED] on success and
[FAILED] on failure; the PROCESSING write happens upstream, as the first
status write of `create_chapter_from_document`, before ingestion is
triggered. -/
theorem ingestion_status_writes (env : IngestEnv) (idStart : Nat) (succeeded : Bool) :
    ((process_document_ingestion env idStart).statusWrites = [DocStatus.COMPLETED] ∨
     (process_document_ingestion env idStart).statusWrites = [DocStatus.FAILED]) ∧
    DocStatus.PROCESSING ∉ (process_document_ingestion env idStart).statusWrites ∧
    (create_chapter_from_document succeeded).head? = some DocStatus.PROCESSING := by
  obtain ⟨W, h | h | h⟩ := process_shape env idStart
  · obtain ⟨chunks, embeddings, _, _, heq⟩ := h
    rw [heq]
    exact ⟨Or.inl rfl, by simp, rfl⟩
  · obtain ⟨chunks, _, heq⟩ := h
    rw [heq]
    exact ⟨Or.inr rfl, by simp, rfl⟩
  · rw [h]
    exact ⟨Or.inr rfl, by simp, rfl⟩

/-- Number of windows produced over a replicated token stream at the
default configuration, pinned between two multiples of the advance. -/
theorem chunkWindows_length_replicate (n k : Nat)
    (h1 : k * (384 - 50) < n) (h2 : n ≤ (k + 1) * (384 - 50)) :
    ∃ ws, chunkWindows (List.replicate n (0 : Nat)) 384 50 = some ws ∧
      ws.length = k + 1 := by
  obtain ⟨ws, hws, hlen, _⟩ :=
    chunkFuel_spec (List.replicate n (0 : Nat)) 384 50 (by omega)
      (List.replicate n (0 : Nat)).length 0 (by omega)
  refine ⟨ws, ?_, ?_⟩
  · rw [chunkWindows]
    simpa using hws
  · have ha := hlen k
    have hb := hlen (k + 1)
    simp only [List.length_replicate, Nat.zero_add, zero_add] at ha hb
    have hka : k < ws.length := ha.mpr h1
    have hkb : ¬ (k + 1 < ws.length) := fun hc => Nat.not_lt.mpr h2 (hb.mp hc)
    omega

/-- Characterization of a fully successful ingestion run over a cached
text. -/
theorem process_success_eq (env : IngestEnv) (idStart : Nat)
    (chunks : List String) (embeddings : List (List Int))
    (hcached : ¬ env.doc.extracted_text = "")
    (hstrip : ¬ pyStripStr env.doc.extracted_text = "")
    (hch : chunk_text_by_token env.doc.extracted_text (some env.tokenizer) 384 50 =
      some chunks)
    (hchne : ¬ chunks = [])
    (hemb : env.embedOutcome = Except.ok embeddings)
    (hembne : ¬ embeddings = []) :
    process_document_ingestion env idStart =
      ⟨[DocStatus.COMPLETED], none, [chunks],
        upsertLoop (mkPoints env.idGen idStart env.doc chunks embeddings) [], true⟩ := by
  simp only [process_document_ingestion, if_neg hcached, if_neg hstrip, hch,
    if_neg hchne, hemb, if_neg hembne]

/-- Tokenizer that maps any text to `n` tokens, decoding each window to a
one-character chunk: realizes a document of arbitrary token count. -/
def bigTokenizer (n : Nat) : Tokenizer :=
  ⟨fun _ => List.replicate n 0, fun _ => "c"⟩

/-- Ingestion environment for a document of 334001 tokens: 1001 chunks at
the default (384, 50) configuration. -/
def capTestEnv : IngestEnv :=
  ⟨⟨"t", "pdf", "u1", some "ch1", "d1"⟩, "", bigTokenizer 334001,
    Except.ok (List.replicate 1001 [0]), fun i => i⟩

/-- Ingestion environment for a document of 33401 tokens: 101 chunks. -/
def batchTestEnv : IngestEnv :=
  ⟨⟨"t", "pdf", "u1", some "ch1", "d1"⟩, "", bigTokenizer 33401,
    Except.ok (List.replicate 101 [0]), fun i => i⟩

/-- The chunker output over a `bigTokenizer n` document, with its count. -/
theorem chunk_bigTokenizer (n k : Nat)
    (h1 : k * (384 - 50) < n) (h2 : n ≤ (k + 1) * (384 - 50)) :
    ∃ chunks, chunk_text_by_token "t" (some (bigTokenizer n)) 384 50 = some chunks ∧
      chunks.length = k + 1 := by
  obtain ⟨ws, hwin, hlen⟩ := chunkWindows_length_replicate n k h1 h2
  refine ⟨ws.map (bigTokenizer n).decode, ?_, by simp [hlen]⟩
  simp only [chunk_text_by_token]
  rw [if_neg (by decide)]
  rw [show (bigTokenizer n).encode "t" = List.replicate n 0 from rfl, hwin]
  rfl

/-- Claim C2: the hard ceiling is never applied.  A document chunking into
1001 chunks is embedded and upserted in full: the run succeeds and the
vector store receives 1001 points, exceeding `MAX_CHUNKS_PER_DOCUMENT`,
which the source defines and never uses. -/
theorem ingestion_cap_never_applied :
    ∃ chunks, chunk_text_by_token "t" (some (bigTokenizer 334001)) 384 50 = some chunks ∧
      chunks.length = 1001 ∧
      (process_document_ingestion capTestEnv 0).succeeded = true ∧
      (process_document_ingestion capTestEnv 0).upsertCalls.flatten.length = 1001 ∧
      MAX_CHUNKS_PER_DOCUMENT < (process_document_ingestion capTestEnv 0).upsertCalls.flatten.length := by
  obtain ⟨chunks, hch, hchlen⟩ := chunk_bigTokenizer 334001 1000 (by norm_num) (by norm_num)
  have hchne : ¬ chunks = [] := by
    intro h
    rw [h] at hchlen
    simp at hchlen
  have hproc := process_success_eq capTestEnv 0 chunks (List.replicate 1001 [0])
    (by decide) (by decide) hch hchne rfl (by simp)
  have hflat : (process_document_ingestion capTestEnv 0).upsertCalls.flatten.length = 1001 := by
    rw [hproc]
    show (upsertLoop (mkPoints capTestEnv.idGen 0 capTestEnv.doc chunks
      (List.replicate 1001 [0])) []).flatten.length = 1001
    rw [upsertLoop_flatten, List.nil_append, mkPoints_length, hchlen,
      List.length_replicate]
    omega
  refine ⟨chunks, hch, hchlen, ?_, hflat, ?_⟩
  · rw [hproc]
  · rw [hflat]
    decide

/-- Claim C7 counterexample: the ingestion run issues a single embedding
call containing all 101 chunk texts at once — more than the batch size 100
the claim allows per call. -/
theorem embedding_call_exceeds_batch :
    (process_document_ingestion batchTestEnv 0).embedCalls.length = 1 ∧
    ((process_document_ingestion batchTestEnv 0).embedCalls.getD 0 []).length = 101 ∧
    ¬ ((process_document_ingestion batchTestEnv 0).embedCalls.getD 0 []).length ≤ BATCH_SIZE := by
  obtain ⟨chunks, hch, hchlen⟩ := chunk_bigTokenizer 33401 100 (by norm_num) (by norm_num)
  have hchne : ¬ chunks = [] := by
    intro h
    rw [h] at hchlen
    simp at hchlen
  have hproc := process_success_eq batchTestEnv 0 chunks (List.replicate 101 [0])
    (by decide) (by decide) hch hchne rfl (by simp)
  rw [hproc]
  refine ⟨rfl, ?_, ?_⟩
  · show chunks.length = 101
    exact hchlen
  · show ¬ chunks.length ≤ BATCH_SIZE
    rw [hchlen]
    decide

/-- Claim C7 (amended): the run issues at most one embedding call, and that
call carries the complete chunk list; the fixed batch size applies to the
vector-store upsert calls (each holds at most `BATCH_SIZE` points); on a
successful run the upserted points are exactly the chunk-vector pairs in
positional alignment, each with the next fresh id. -/
theorem embedding_single_call_spec (env : IngestEnv) (idStart : Nat) :
    (process_document_ingestion env idStart).embedCalls.length ≤ 1 ∧
    (∀ call ∈ (process_document_ingestion env idStart).embedCalls,
      chunk_text_by_token
        (if env.doc.extracted_text = "" then env.extractResult else env.doc.extracted_text)
        (some env.tokenizer) 384 50 = some call) ∧
    (∀ b ∈ (process_document_ingestion env idStart).upsertCalls, b.length ≤ BATCH_SIZE) ∧
    (∀ call ∈ (process_document_ingestion env idStart).embedCalls,
      ∀ embeddings, env.embedOutcome = Except.ok embeddings →
      (process_document_ingestion env idStart).succeeded = true →
      (process_document_ingestion env idStart).upsertCalls.flatten =
        mkPoints env.idGen idStart env.doc call embeddings ∧
      ∀ i, i < (mkPoints env.idGen idStart env.doc call embeddings).length →
        (mkPoints env.idGen idStart env.doc call embeddings).getD i default =
          ⟨env.idGen (idStart + i), embeddings.getD i [],
            payloadOfChunk env.doc (call.getD i "")⟩) := by
  obtain ⟨W, h | h | h⟩ := process_shape env idStart
  · obtain ⟨chunks, embeddings, hch, hemb, heq⟩ := h
    rw [heq]
    refine ⟨by simp, ?_, ?_, ?_⟩
    · intro call hcall
      have : call = chunks := by simpa using hcall
      subst this
      exact hch
    · intro b hb
      exact upsertLoop_batch_le _ [] (by simp [BATCH_SIZE]) b hb
    · intro call hcall embeddings2 hemb2 _
      have hce : call = chunks := by simpa using hcall
      subst hce
      have hee : embeddings2 = embeddings := by
        rw [hemb] at hemb2
        injection hemb2 with hee
        exact hee.symm
      subst hee
      refine ⟨?_, ?_⟩
      · show (upsertLoop (mkPoints env.idGen idStart env.doc call embeddings2) []).flatten = _
        rw [upsertLoop_flatten, List.nil_append]
      · intro i hi
        exact mkPoints_getD env.idGen idStart env.doc call embeddings2 i hi
  · obtain ⟨chunks, hch, heq⟩ := h
    rw [heq]
    refine ⟨by simp, ?_, ?_, ?_⟩
    · intro call hcall
      have : call = chunks := by simpa using hcall
      subst this
      exact hch
    · intro b hb
      simp at hb
    · intro call hcall embeddings2 hemb2 hsucc
      exact absurd hsucc (by simp)
  · rw [h]
    refine ⟨by simp, ?_, ?_, ?_⟩
    · intro call hcall
      simp at hcall
    · intro b hb
      simp at hb
    · intro call hcall
      simp at hcall

/-- Witness for `embedding_single_call_spec` at the sample environment. -/
theorem embedding_single_call_spec_witness :
    (process_document_ingestion sampleIngestEnv 0).embedCalls.length ≤ 1 ∧
    chunk_text_by_token
      (if sampleIngestEnv.doc.extracted_text = "" then sampleIngestEnv.extractResult
       else sampleIngestEnv.doc.extracted_text)
      (some sampleIngestEnv.tokenizer) 384 50 = some ["hi"] ∧
    (process_document_ingestion sampleIngestEnv 0).upsertCalls.flatten =
      mkPoints sampleIngestEnv.idGen 0 sampleIngestEnv.doc ["hi"] [[0], [1]] := by
  have h := embedding_single_call_spec sampleIngestEnv 0
  refine ⟨h.1, ?_, ?_⟩
  · exact h.2.1 ["hi"] (by decide)
  · exact (h.2.2.2 ["hi"] (by decide) [[0], [1]] rfl (by decide)).1

/-- Qdrant upsert semantics of one point: replace an existing point with
the same id, otherwise insert. -/
def upsertPoint (store : List IngestPoint) (p : IngestPoint) : List IngestPoint :=
  if ∃ q ∈ store, q.id = p.id then
    store.map (fun q => if q.id = p.id then p else q)
  else store ++ [p]

/-- Applying all upsert calls of one ingestion run to a collection. -/
def applyUpserts (store : List IngestPoint) (fx : IngestEffects) : List IngestPoint :=
  fx.upsertCalls.flatten.foldl upsertPoint store

/-- Upserting points with fresh, pairwise-distinct ids only appends. -/
theorem foldl_upsert_fresh : ∀ (pts store : List IngestPoint),
    (∀ p ∈ pts, ∀ q ∈ store, q.id ≠ p.id) →
    (pts.map (fun p => p.id)).Nodup →
    pts.foldl upsertPoint store = store ++ pts := by
  intro pts
  induction pts with
  | nil =>
      intro store _ _
      simp
  | cons p rest ih =>
      intro store hfresh hnodup
      have hno : ¬ ∃ q ∈ store, q.id = p.id := by
        rintro ⟨q, hq, he⟩
        exact hfresh p (List.mem_cons_self p rest) q hq he
      rw [List.foldl_cons]
      rw [show upsertPoint store p = store ++ [p] from by rw [upsertPoint, if_neg hno]]
      rw [ih (store ++ [p]) ?_ ?_]
      · simp
      · intro p2 hp2 q hq
        rcases List.mem_append.mp hq with hq | hq
        · exact hfresh p2 (List.mem_cons_of_mem _ hp2) q hq
        · have hqe : q = p := by simpa using hq
          intro he
          rw [hqe] at he
          have hmem : p.id ∈ rest.map (fun p3 => p3.id) :=
            List.mem_map.mpr ⟨p2, hp2, he.symm⟩
          exact (List.nodup_cons.mp (by simpa using hnodup)).1 hmem
      · exact (List.nodup_cons.mp (by simpa using hnodup)).2

/-- The ids of the points a run upserts are consecutive fresh draws from
its id-stream offset. -/
theorem process_flatten_ids (env : IngestEnv) (idStart : Nat) :
    ∃ n, (process_document_ingestion env idStart).upsertCalls.flatten.map (fun p => p.id) =
      (List.range n).map (fun i => env.idGen (idStart + i)) := by
  obtain ⟨W, h | h | h⟩ := process_shape env idStart
  · obtain ⟨chunks, embeddings, _, _, heq⟩ := h
    refine ⟨min chunks.length embeddings.length, ?_⟩
    rw [heq]
    show (upsertLoop (mkPoints env.idGen idStart env.doc chunks embeddings) []).flatten.map
      (fun p => p.id) = _
    rw [upsertLoop_flatten, List.nil_append, mkPoints_ids]
  · obtain ⟨chunks, _, heq⟩ := h
    exact ⟨0, by rw [heq]; rfl⟩
  · exact ⟨0, by rw [h]; rfl⟩

/-- Claim C10: every upserted point carries a fresh random id, so a second
ingestion run of the same document inserts a disjoint second point set —
the collection doubles instead of being overwritten.  The id generator's
injectivity models the freshness of `uuid.uuid4()` draws. -/
theorem reingestion_not_idempotent (env : IngestEnv)
    (hinj : Function.Injective env.idGen) :
    let run1 := process_document_ingestion env 0
    let run2 := process_document_ingestion env run1.upsertCalls.flatten.length
    let store := applyUpserts (applyUpserts [] run1) run2
    (∀ p ∈ run1.upsertCalls.flatten, ∀ q ∈ run2.upsertCalls.flatten, p.id ≠ q.id) ∧
    store = run1.upsertCalls.flatten ++ run2.upsertCalls.flatten ∧
    store.length = run1.upsertCalls.flatten.length + run2.upsertCalls.flatten.length ∧
    (∀ p ∈ run1.upsertCalls.flatten, p ∈ store) := by
  intro run1 run2 store
  obtain ⟨n1, hid1⟩ := process_flatten_ids env 0
  obtain ⟨n2, hid2⟩ := process_flatten_ids env run1.upsertCalls.flatten.length
  have hn1 : run1.upsertCalls.flatten.length = n1 := by
    have h := congrArg List.length hid1
    rw [List.length_map, List.length_map, List.length_range] at h
    exact h
  have hmem1 : ∀ p ∈ run1.upsertCalls.flatten, ∃ i, i < n1 ∧ p.id = env.idGen (0 + i) := by
    intro p hp
    have : p.id ∈ run1.upsertCalls.flatten.map (fun p2 => p2.id) :=
      List.mem_map.mpr ⟨p, hp, rfl⟩
    rw [hid1] at this
    obtain ⟨i, hi, he⟩ := List.mem_map.mp this
    exact ⟨i, List.mem_range.mp hi, he.symm⟩
  have hmem2 : ∀ q ∈ run2.upsertCalls.flatten, ∃ j, j < n2 ∧ q.id = env.idGen (n1 + j) := by
    intro q hq
    have : q.id ∈ run2.upsertCalls.flatten.map (fun p2 => p2.id) :=
      List.mem_map.mpr ⟨q, hq, rfl⟩
    rw [hid2] at this
    obtain ⟨j, hj, he⟩ := List.mem_map.mp this
    rw [hn1] at he
    exact ⟨j, List.mem_range.mp hj, he.symm⟩
  have hdisj : ∀ p ∈ run1.upsertCalls.flatten, ∀ q ∈ run2.upsertCalls.flatten,
      p.id ≠ q.id := by
    intro p hp q hq he
    obtain ⟨i, hi, hpe⟩ := hmem1 p hp
    obtain ⟨j, _, hqe⟩ := hmem2 q hq
    rw [hpe, hqe] at he
    have := hinj he
    omega
  have hnodup1 : (run1.upsertCalls.flatten.map (fun p => p.id)).Nodup := by
    rw [hid1]
    exact (List.nodup_range n1).map
      (fun a b hab => by have := hinj hab; omega)
  have hnodup2 : (run2.upsertCalls.flatten.map (fun p => p.id)).Nodup := by
    rw [hid2]
    exact (List.nodup_range n2).map
      (fun a b hab => by have := hinj hab; omega)
  have hstep1 : applyUpserts [] run1 = run1.upsertCalls.flatten := by
    rw [applyUpserts, foldl_upsert_fresh _ [] (by simp) hnodup1]
    simp
  have hstep2 : store = run1.upsertCalls.flatten ++ run2.upsertCalls.flatten := by
    show applyUpserts (applyUpserts [] run1) run2 = _
    rw [hstep1, applyUpserts, foldl_upsert_fresh _ _ ?_ hnodup2]
    intro p2 hp2 q hq
    exact hdisj q hq p2 hp2
  refine ⟨hdisj, hstep2, ?_, ?_⟩
  · rw [hstep2]
    simp
  · intro p hp
    rw [hstep2]
    exact List.mem_append_left _ hp

/-- Witness for `reingestion_not_idempotent` at the sample environment with
the identity id stream. -/
theorem reingestion_not_idempotent_witness :
    (let run1 := process_document_ingestion sampleIngestEnv 0
     let run2 := process_document_ingestion sampleIngestEnv run1.upsertCalls.flatten.length
     let store := applyUpserts (applyUpserts [] run1) run2
     (∀ p ∈ run1.upsertCalls.flatten, ∀ q ∈ run2.upsertCalls.flatten, p.id ≠ q.id) ∧
     store = run1.upsertCalls.flatten ++ run2.upsertCalls.flatten ∧
     store.length = run1.upsertCalls.flatten.length + run2.upsertCalls.flatten.length ∧
     (∀ p ∈ run1.upsertCalls.flatten, p ∈ store)) :=
  reingestion_not_idempotent sampleIngestEnv (fun a b h => h)
